import Mathlib

/-!
Verification development for `cargo-duplicated-deps` (`src/main.rs`).

The program reads a `Cargo.lock`, builds a map from package name to the
list of `PackageInfo` entries (one per record, each carrying a version
string and the list of dependent records), detects package names pinned
at more than one version, and traces usage chains through the dependent
relation.  The definitions below are a shallow embedding of that code:

* `pass1` / `addDep` / `addDeps` / `pass2` / `buildMap` / `buildDiags`
  embed the two index-building loops of `run` (main.rs lines 111-139);
* `maxByVersion` / `collectDups` / `detectEntry` / `detectSorted` /
  `detect` embed the duplicate-detection loop (main.rs lines 141-174);
* `findUserStep` / `chainLoop` / `get_usage_chain` embed the chain
  tracer (main.rs lines 29-51), with an explicit fuel parameter so that
  the (possibly diverging) `loop` becomes a total function;
* `SemVer`, `semverParse`, `semverCmp` model the external `semver`
  crate, following the specification's description of semantic-version
  syntax and precedence.
-/

/-! ## Comparator infrastructure

`Ordering`-valued comparators together with the laws needed to reason
about maxima.  These model the `Ord` implementations the Rust code
relies on. -/

/-- A lawful three-way comparator: reflexively `eq`, `eq` only on equal
arguments, antisymmetric between `lt` and `gt`, and transitive on `lt`. -/
structure LawfulCmp {α : Type} (c : α → α → Ordering) : Prop where
  refl : ∀ a, c a a = .eq
  eq_iff : ∀ a b, c a b = .eq ↔ a = b
  lt_iff_gt : ∀ a b, c a b = .lt ↔ c b a = .gt
  lt_trans : ∀ a b d, c a b = .lt → c b d = .lt → c a d = .lt

/-- Three-way comparison derived from a linear order. -/
def cmpOf {α : Type} [LinearOrder α] (a b : α) : Ordering :=
  if a < b then .lt else if a = b then .eq else .gt

/-- Lexicographic comparison on pairs. -/
def prodCmp {α β : Type} (cα : α → α → Ordering) (cβ : β → β → Ordering) :
    α × β → α × β → Ordering
  | (a₁, b₁), (a₂, b₂) =>
    match cα a₁ a₂ with
    | .eq => cβ b₁ b₂
    | o => o

/-- Lexicographic comparison on lists (a strict prefix is smaller). -/
def listCmp {α : Type} (c : α → α → Ordering) : List α → List α → Ordering
  | [], [] => .eq
  | [], _ :: _ => .lt
  | _ :: _, [] => .gt
  | x :: xs, y :: ys =>
    match c x y with
    | .eq => listCmp c xs ys
    | o => o

/-! ## Semantic versions

Modelled from the spec: the `semver` crate is an external collaborator;
§4.2 states that version comparison follows standard semantic-versioning
precedence (major, minor, patch, then pre-release tag comparison), and
that a version string must conform to semantic-version syntax to parse.
Build metadata is parsed and retained but has no effect on precedence. -/

/-- One pre-release identifier: numeric or alphanumeric. -/
inductive PreId : Type
  | num (n : Nat)
  | str (s : String)
  deriving Repr, DecidableEq

/-- A parsed semantic version. -/
structure SemVer : Type where
  major : Nat
  minor : Nat
  patch : Nat
  pre : List PreId
  build : Option String
  deriving Repr, DecidableEq

/-- Comparison of pre-release identifiers: numeric identifiers sort below
alphanumeric ones; numeric compare numerically, alphanumeric lexically. -/
def preIdCmp : PreId → PreId → Ordering
  | .num a, .num b => cmpOf a b
  | .num _, .str _ => .lt
  | .str _, .num _ => .gt
  | .str a, .str b => cmpOf a b

/-- Comparison of pre-release identifier lists: an empty list (a release)
has higher precedence than any non-empty list (a pre-release). -/
def preCmp : List PreId → List PreId → Ordering
  | [], [] => .eq
  | [], _ :: _ => .gt
  | _ :: _, [] => .lt
  | x :: xs, y :: ys => listCmp preIdCmp (x :: xs) (y :: ys)

/-- The precedence key of a version: everything except build metadata. -/
def semverKey (v : SemVer) : Nat × (Nat × (Nat × List PreId)) :=
  (v.major, (v.minor, (v.patch, v.pre)))

/-- The comparator on precedence keys. -/
def keyCmp : Nat × (Nat × (Nat × List PreId)) → Nat × (Nat × (Nat × List PreId)) → Ordering :=
  prodCmp cmpOf (prodCmp cmpOf (prodCmp cmpOf preCmp))

/-- Semantic-version precedence comparison. -/
def semverCmp (a b : SemVer) : Ordering :=
  keyCmp (semverKey a) (semverKey b)

/-- Is `c` an ASCII digit? -/
def isDigitCh (c : Char) : Bool :=
  '0' ≤ c && c ≤ '9'

/-- Is `c` allowed in a semver identifier (`[0-9A-Za-z-]`)? -/
def isIdentCh (c : Char) : Bool :=
  isDigitCh c || ('a' ≤ c && c ≤ 'z') || ('A' ≤ c && c ≤ 'Z') || c == '-'

/-- Numeric value of a digit string. -/
def natOfChars (l : List Char) : Nat :=
  l.foldl (fun acc c => acc * 10 + (c.toNat - 48)) 0

/-- Parse a numeric semver component: non-empty, all digits, no leading
zero (except the single digit `0`). -/
def parseNumericChars (l : List Char) : Option Nat :=
  if l.isEmpty then none
  else if !(l.all isDigitCh) then none
  else if l.length > 1 && l.headD '0' == '0' then none
  else some (natOfChars l)

/-- Parse one pre-release identifier. -/
def parsePreIdChars (l : List Char) : Option PreId :=
  if l.isEmpty then none
  else if !(l.all isIdentCh) then none
  else if l.all isDigitCh then
    if l.length > 1 && l.headD '0' == '0' then none
    else some (.num (natOfChars l))
  else some (.str (String.mk l))

/-- Split a character list at every occurrence of `c`. -/
def splitOnChar (c : Char) : List Char → List (List Char)
  | [] => [[]]
  | x :: rest =>
    let r := splitOnChar c rest
    if x == c then [] :: r
    else
      match r with
      | [] => [[x]]
      | h :: t => (x :: h) :: t

/-- Split a character list at the first occurrence of `c`, if any. -/
def splitFirstChar (c : Char) : List Char → List Char × Option (List Char)
  | [] => ([], none)
  | x :: rest =>
    if x == c then ([], some rest)
    else
      let r := splitFirstChar c rest
      (x :: r.1, r.2)

/-- Parse each element of a list, failing if any element fails. -/
def traverseOption {α β : Type} (f : α → Option β) : List α → Option (List β)
  | [] => some []
  | x :: rest =>
    match f x, traverseOption f rest with
    | some y, some ys => some (y :: ys)
    | _, _ => none

/-- Parse a semantic-version string: `MAJOR.MINOR.PATCH`, optionally
followed by `-` and dot-separated pre-release identifiers, optionally
followed by `+` and dot-separated build identifiers. -/
def semverParse (s : String) : Option SemVer :=
  let p := splitFirstChar '+' s.data
  let q := splitFirstChar '-' p.1
  match splitOnChar '.' q.1 with
  | [ma, mi, pa] =>
    match parseNumericChars ma, parseNumericChars mi, parseNumericChars pa with
    | some major, some minor, some patch =>
      let preIds : Option (List PreId) :=
        match q.2 with
        | none => some []
        | some pc => traverseOption parsePreIdChars (splitOnChar '.' pc)
      let buildPart : Option (Option String) :=
        match p.2 with
        | none => some none
        | some bc =>
          if (splitOnChar '.' bc).all (fun idc => !idc.isEmpty && idc.all isIdentCh) then
            some (some (String.mk bc))
          else none
      match preIds, buildPart with
      | some pre, some build => some ⟨major, minor, patch, pre, build⟩
      | _, _ => none
    | _, _, _ => none
  | _ => none

/-- Render a pre-release identifier back to its textual form. -/
def PreId.render : PreId → String
  | .num n => toString n
  | .str s => s

/-- Render a version the way `semver::Version`'s `Display` does. -/
def SemVer.render (v : SemVer) : String :=
  toString v.major ++ "." ++ toString v.minor ++ "." ++ toString v.patch
    ++ (if v.pre.isEmpty then ""
        else "-" ++ String.intercalate "." (v.pre.map PreId.render))
    ++ (match v.build with
        | none => ""
        | some b => "+" ++ b)

/-! ## Data model

Embeds the types of `main.rs`: `cargo_lock::Package` (name, version,
dependency list), `PackageInfo` (main.rs lines 23-27) and `Duplicate`
(main.rs lines 69-75).  Versions are kept as strings, exactly as
`PackageInfo.version` and the detector's re-parsing treat them. -/

/-- One declared dependency: an exact (name, version) reference. -/
structure Dependency : Type where
  name : String
  version : String
  deriving Repr, DecidableEq

/-- One resolved package record of the lock file. -/
structure Package : Type where
  name : String
  version : String
  dependencies : List Dependency
  deriving Repr, DecidableEq

/-- One distinct version entry under a package name, with the records
that depend on it (`users`). -/
structure PackageInfo : Type where
  version : String
  users : List Package
  deriving Repr, DecidableEq

/-- The `HashMap<String, Vec<PackageInfo>>` of `run`, as an association
list (the code never depends on hash order: it sorts the keys). -/
abbrev PackageMap := List (String × List PackageInfo)

/-- Embeds `HashMap::get`. -/
def mapGet : PackageMap → String → Option (List PackageInfo)
  | [], _ => none
  | (k, v) :: rest, n => if k = n then some v else mapGet rest n

/-- Embeds `HashMap::get_mut` followed by an in-place update of the value. -/
def mapUpdate (m : PackageMap) (n : String) (f : List PackageInfo → List PackageInfo) :
    PackageMap :=
  match m with
  | [] => []
  | (k, v) :: rest => if k = n then (k, f v) :: rest else (k, v) :: mapUpdate rest n f

/-! ## Index build (main.rs lines 111-139) -/

/-- Pass 1 (main.rs lines 113-124): for each record, push a fresh
`PackageInfo` onto the entry list of its name (creating the entry when
the name is new).  Note: the push is unconditional — no check that the
version is already present. -/
def pass1 (m : PackageMap) : List Package → PackageMap
  | [] => m
  | p :: rest =>
    let info : PackageInfo := { version := p.version, users := [] }
    let m1 :=
      match mapGet m p.name with
      | some _ => mapUpdate m p.name (fun s => s ++ [info])
      | none => m ++ [(p.name, [info])]
    pass1 m1 rest

/-- One dependency edge of pass 2 (main.rs lines 128-138): if the
dependency's name is in the map, push the depending record onto the
`users` of every entry whose version matches; otherwise report
`ERROR: <name> not found`. -/
def addDep (m : PackageMap) (p : Package) (dep : Dependency) :
    PackageMap × Option String :=
  match mapGet m dep.name with
  | some _ =>
    (mapUpdate m dep.name (fun s =>
      s.map (fun info =>
        if info.version == dep.version then
          { info with users := info.users ++ [p] }
        else info)), none)
  | none => (m, some ("ERROR: " ++ dep.name ++ " not found"))

/-- Pass 2, inner loop: all dependency edges of one record. -/
def addDeps (m : PackageMap) (p : Package) : List Dependency → PackageMap × List String
  | [] => (m, [])
  | dep :: rest =>
    let r := addDep m p dep
    let r2 := addDeps r.1 p rest
    (r2.1,
      (match r.2 with
       | some e => [e]
       | none => []) ++ r2.2)

/-- Pass 2 (main.rs lines 127-139): insert users, collecting the
`not found` diagnostics in emission order. -/
def pass2 (m : PackageMap) : List Package → PackageMap × List String
  | [] => (m, [])
  | p :: rest =>
    let r := addDeps m p p.dependencies
    let r2 := pass2 r.1 rest
    (r2.1, r.2 ++ r2.2)

/-- The fully built index. -/
def buildMap (records : List Package) : PackageMap :=
  (pass2 (pass1 [] records) records).1

/-- The resolution-failure diagnostics printed during the index build. -/
def buildDiags (records : List Package) : List String :=
  (pass2 (pass1 [] records) records).2

/-- The version strings stored under name `n` (empty when `n` is absent). -/
def versionsOf (m : PackageMap) (n : String) : List String :=
  ((mapGet m n).getD []).map (fun info => info.version)

/-! ## Duplicate detection (main.rs lines 141-174) -/

/-- The output unit (main.rs lines 69-75). -/
structure Duplicate : Type where
  package : String
  version : String
  latest : String
  users : List Package
  deriving Repr, DecidableEq

/-- How the detection loop can abort the whole run. -/
inductive RunError : Type
  /-- The `Version::parse(&info.version).unwrap()` inside `max_by_key`
  (main.rs line 150) panicking on an unparseable version. -/
  | panicVersionParse (version : String)
  /-- The `package_map.get(key).unwrap()` (main.rs line 147) panicking;
  unreachable because the keys are collected from the map itself. -/
  | panicKeyMissing (key : String)
  /-- A `?` on `Version::parse` (main.rs lines 156, 157, 160) returning
  the error from `run`. -/
  | errVersionParse (version : String)
  deriving Repr, DecidableEq

/-- Accumulator loop of `max_by_key`: `best` holds the current maximal
element and its parsed version; on a tie the later element wins, as with
Rust's `Iterator::max_by_key`. -/
def maxByVersionGo (best : PackageInfo × SemVer) :
    List PackageInfo → Except RunError PackageInfo
  | [] => .ok best.1
  | info :: rest =>
    match semverParse info.version with
    | none => .error (.panicVersionParse info.version)
    | some v =>
      if semverCmp v best.2 = .lt then maxByVersionGo best rest
      else maxByVersionGo (info, v) rest

/-- Embeds `value.iter().max_by_key(|info| Version::parse(&info.version).unwrap())`
(main.rs line 150); the final `.unwrap()` on an empty list is a panic. -/
def maxByVersion : List PackageInfo → Except RunError PackageInfo
  | [] => .error (.panicKeyMissing "")
  | info :: rest =>
    match semverParse info.version with
    | none => .error (.panicVersionParse info.version)
    | some v => maxByVersionGo (info, v) rest

/-- Inner loop of the detector (main.rs lines 159-172): each entry whose
parsed version differs from the parsed default (local-maximum) version
contributes one `Duplicate` carrying that entry's users. -/
def collectDups (key : String) (dv lv : SemVer) :
    List PackageInfo → Except RunError (List Duplicate)
  | [] => .ok []
  | info :: rest =>
    match semverParse info.version with
    | none => .error (.errVersionParse info.version)
    | some v =>
      match collectDups key dv lv rest with
      | .error e => .error e
      | .ok ds =>
        if v ≠ dv then
          .ok ({ package := key, version := info.version,
                 latest := lv.render, users := info.users } :: ds)
        else .ok ds

/-- The body of the detection loop for one key (main.rs lines 148-173).
`lk` models `get_latest_version`: `some s` is `Ok(s)` (the raw string
from the registry, not yet parsed), `none` is any `Err` (network error,
timeout, missing JSON field); `offline` selects the `--offline` branch. -/
def detectEntry (key : String) (infos : List PackageInfo) (offline : Bool)
    (lk : String → Option String) : Except RunError (List Duplicate) :=
  if 1 < infos.length then
    match maxByVersion infos with
    | .error e => .error e
    | .ok maxInfo =>
      let defaultVersion := maxInfo.version
      let latestStr := if offline then defaultVersion else (lk key).getD defaultVersion
      match semverParse defaultVersion with
      | none => .error (.errVersionParse defaultVersion)
      | some dv =>
        match semverParse latestStr with
        | none => .error (.errVersionParse latestStr)
        | some _lv => collectDups key dv _lv infos
  else .ok []

/-- The detection loop over the sorted key list (main.rs lines 146-174);
any error aborts the whole run, discarding duplicates found so far. -/
def detectSorted (m : PackageMap) (offline : Bool) (lk : String → Option String) :
    List String → Except RunError (List Duplicate)
  | [] => .ok []
  | key :: rest =>
    match mapGet m key with
    | none => .error (.panicKeyMissing key)
    | some infos =>
      match detectEntry key infos offline lk with
      | .error e => .error e
      | .ok ds =>
        match detectSorted m offline lk rest with
        | .error e => .error e
        | .ok ds2 => .ok (ds ++ ds2)

/-- Lexicographic (code-point) strict order on character lists, as Rust
compares `String` keys byte-lexicographically in `keys.sort()`. -/
def listCharLt : List Char → List Char → Bool
  | [], [] => false
  | [], _ :: _ => true
  | _ :: _, [] => false
  | c :: cs, d :: ds => if c < d then true else if d < c then false else listCharLt cs ds

/-- Insert a key into an ascending list (for `keys.sort()`). -/
def insertSortedStr (s : String) : List String → List String
  | [] => [s]
  | t :: rest =>
    if listCharLt t.data s.data then t :: insertSortedStr s rest else s :: t :: rest

/-- Ascending insertion sort on strings. -/
def sortStrings : List String → List String
  | [] => []
  | k :: rest => insertSortedStr k (sortStrings rest)

/-- Embeds `let mut keys: Vec<String> = package_map.keys().cloned().collect();
keys.sort();` (main.rs lines 142-143). -/
def sortKeys (m : PackageMap) : List String :=
  sortStrings (m.map (fun e => e.1))

/-- The whole detection phase of `run`. -/
def detect (m : PackageMap) (offline : Bool) (lk : String → Option String) :
    Except RunError (List Duplicate) :=
  detectSorted m offline lk (sortKeys m)

/-! ## Chain tracer (main.rs lines 29-51) -/

/-- Result of `get_usage_chain` under a fuel bound.  The chain is kept
as (name, version) pairs; the program renders each pair as
`name vversion` and joins them with `" -> "`. -/
inductive ChainResult : Type
  /-- One of the two entry `unwrap`s (main.rs line 31) panicked. -/
  | panicked
  /-- The `loop` did not finish within the given fuel. -/
  | outOfFuel
  /-- The loop broke and produced this chain. -/
  | done (chain : List (String × String))
  deriving Repr, DecidableEq

/-- The side-effecting `find` closure (main.rs lines 33-45): the first
user of `current` that is itself present in the map with a matching
version, together with the entry the walk moves to. -/
def findUserStep (m : PackageMap) : List Package → Option (Package × PackageInfo)
  | [] => none
  | u :: rest =>
    match mapGet m u.name with
    | some infos =>
      match infos.find? (fun info => info.version == u.version) with
      | some info => some (u, info)
      | none => findUserStep m rest
    | none => findUserStep m rest

/-- The `loop` of `get_usage_chain`, with fuel making it total. -/
def chainLoop (m : PackageMap) : Nat → PackageInfo → List (String × String) → ChainResult
  | 0, _, _ => .outOfFuel
  | fuel + 1, current, chain =>
    match findUserStep m current.users with
    | none => .done chain
    | some (u, info) => chainLoop m fuel info (chain ++ [(u.name, u.version)])

/-- Embeds `get_usage_chain` (main.rs lines 29-51). -/
def get_usage_chain (m : PackageMap) (fuel : Nat) (package : Package) : ChainResult :=
  match mapGet m package.name with
  | none => .panicked
  | some infos =>
    match infos.find? (fun info => info.version == package.version) with
    | none => .panicked
    | some current => chainLoop m fuel current [(package.name, package.version)]

/-- The rendered string the program would print for a finished chain. -/
def renderChain (chain : List (String × String)) : String :=
  String.intercalate " -> " (chain.map (fun q => q.1 ++ " v" ++ q.2))

/-! ## Relations used to state the claims -/

/-- Record `u` declares a dependency on exactly (`n`, `v`). -/
def declaresDep (u : Package) (n v : String) : Prop :=
  ∃ d ∈ u.dependencies, d.name = n ∧ d.version = v

/-- A valid chain link: `b` labels a record of the input that was
declared as depending on the (name, version) labelled by `a`. -/
def chainStep (records : List Package) (a b : String × String) : Prop :=
  ∃ u ∈ records, u.name = b.1 ∧ u.version = b.2 ∧ declaresDep u a.1 a.2

/-- Every adjacent pair of the list satisfies `R`. -/
def ChainedBy {α : Type} (R : α → α → Prop) : List α → Prop
  | [] => True
  | [_] => True
  | a :: b :: rest => R a b ∧ ChainedBy R (b :: rest)

/-- The index invariant behind the chain tracer: every user stored under
(`n`, `info.version`) is an input record that declares that dependency. -/
def UsersOk (records : List Package) (m : PackageMap) : Prop :=
  ∀ n infos, mapGet m n = some infos →
    ∀ info ∈ infos, ∀ u ∈ info.users,
      u ∈ records ∧ declaresDep u n info.version

/-- Two entries with distinct parsed versions (whenever the first
parses); `semver::Version` equality is structural, so this is exactly
"not the same parsed version". -/
def parsedDistinct (a b : PackageInfo) : Prop :=
  semverParse a.version = none ∨ semverParse a.version ≠ semverParse b.version

instance (a b : PackageInfo) : Decidable (parsedDistinct a b) := by
  unfold parsedDistinct
  infer_instance

/-- All user lists in the map are empty. -/
def AllUsersNil (m : PackageMap) : Prop :=
  ∀ n infos, mapGet m n = some infos → ∀ info ∈ infos, info.users = []

instance {ε α : Type} [DecidableEq ε] [DecidableEq α] : DecidableEq (Except ε α) := fun x y =>
  match x, y with
  | .ok a, .ok b =>
    if h : a = b then isTrue (by rw [h]) else isFalse (by intro hx; cases hx; exact h rfl)
  | .error e, .error f =>
    if h : e = f then isTrue (by rw [h]) else isFalse (by intro hx; cases hx; exact h rfl)
  | .ok _, .error _ => isFalse (by intro hx; cases hx)
  | .error _, .ok _ => isFalse (by intro hx; cases hx)

/-! ## Concrete inputs used by the counterexamples and witnesses -/

/-- Two records of one name at two versions (for the online-baseline
counterexample). -/
def cx1records : List Package :=
  [{ name := "a", version := "1.0.0", dependencies := [] },
   { name := "a", version := "2.0.0", dependencies := [] }]

/-- An online resolver answering a version that is present locally but
is not the local maximum. -/
def cx1lookup : String → Option String := fun _ => some "1.0.0"

/-- Record `a` depending on `b`, closing a dependent cycle with `cx2pkgB`. -/
def cx2pkgA : Package :=
  { name := "a", version := "1.0.0", dependencies := [{ name := "b", version := "1.0.0" }] }

/-- Record `b` depending on `a`, closing a dependent cycle with `cx2pkgA`. -/
def cx2pkgB : Package :=
  { name := "b", version := "1.0.0", dependencies := [{ name := "a", version := "1.0.0" }] }

/-- A two-record input whose dependent relation is a cycle. -/
def cx2records : List Package := [cx2pkgA, cx2pkgB]

/-- The index built from the cyclic input. -/
def cx2map : PackageMap := buildMap cx2records

/-- The entry for `a v1.0.0` in `cx2map`. -/
def cx2infoA : PackageInfo := { version := "1.0.0", users := [cx2pkgB] }

/-- The entry for `b v1.0.0` in `cx2map`. -/
def cx2infoB : PackageInfo := { version := "1.0.0", users := [cx2pkgA] }

/-- A duplicated name `a` with an unparseable version, next to a
duplicated name `b` that would have produced a duplicate report. -/
def cx3records : List Package :=
  [{ name := "a", version := "bad", dependencies := [] },
   { name := "a", version := "1.0.0", dependencies := [] },
   { name := "b", version := "1.0.0", dependencies := [] },
   { name := "b", version := "2.0.0", dependencies := [] }]

/-- The record whose dependency names a present name at an absent
version. -/
def cx4user : Package :=
  { name := "a", version := "1.0.0", dependencies := [{ name := "b", version := "2.0.0" }] }

/-- Input with a dependency on (`b`, `2.0.0`) while only `b 1.0.0`
exists. -/
def cx4records : List Package :=
  [{ name := "b", version := "1.0.0", dependencies := [] }, cx4user]

/-- A duplicated name (for the unparseable-online-answer
counterexample). -/
def cx5records : List Package :=
  [{ name := "b", version := "1.0.0", dependencies := [] },
   { name := "b", version := "2.0.0", dependencies := [] }]

/-- An online resolver answering successfully with a non-semver string. -/
def cx5lookup : String → Option String := fun _ => some "garbage"

/-- Two records with the identical (name, version) pair. -/
def cx9records : List Package :=
  [{ name := "a", version := "1.0.0", dependencies := [] },
   { name := "a", version := "1.0.0", dependencies := [] }]

/-- Entry list of a name with two distinct parseable versions. -/
def w1infos : List PackageInfo :=
  [{ version := "1.0.0", users := [] }, { version := "2.0.0", users := [] }]

/-- A duplicated name with all versions parseable plus an unparseable
duplicated name (for the abort witness). -/
def w3records : List Package :=
  [{ name := "p", version := "0.1.0", dependencies := [] },
   { name := "p", version := "oops", dependencies := [] }]

/-- The record of `w4records` with the unresolvable dependency. -/
def w4user : Package :=
  { name := "a", version := "1.0.0", dependencies := [{ name := "x", version := "1.0.0" }] }

/-- A record depending on a name absent from the whole input. -/
def w4records : List Package := [w4user]

/-- A duplicated name analysed offline and online-with-failing-lookup. -/
def w5records : List Package :=
  [{ name := "c", version := "1.2.3", dependencies := [] },
   { name := "c", version := "1.2.4", dependencies := [] }]

/-- Entry list whose maximum is its second entry. -/
def w6infos : List PackageInfo :=
  [{ version := "0.9.0", users := [] }, { version := "1.0.0", users := [] }]

/-- A single-version name `a` next to a genuinely duplicated name `b`. -/
def w7records : List Package :=
  [{ name := "a", version := "1.0.0", dependencies := [] },
   { name := "b", version := "1.0.0", dependencies := [] },
   { name := "b", version := "2.0.0", dependencies := [] }]

/-- The queried dependent of the chain witness. -/
def w8pkg : Package := { name := "b", version := "1.0.0", dependencies := [] }

/-- A root record depending on `b 1.0.0`. -/
def w8pkgA : Package :=
  { name := "a", version := "1.0.0", dependencies := [{ name := "b", version := "1.0.0" }] }

/-- Input for the chain witness: `a` depends on `b`. -/
def w8records : List Package := [w8pkg, w8pkgA]

/-- The queried record for the no-panic witness. -/
def w10pkg : Package := { name := "q", version := "3.0.0", dependencies := [] }

/-- Input for the no-panic witness. -/
def w10records : List Package :=
  [w10pkg, { name := "r", version := "1.0.0", dependencies := [{ name := "q", version := "3.0.0" }] }]

/-- The always-failing external lookup (network error / timeout). -/
def lkNone : String → Option String := fun _ => none

/-- The maximal entry of `w1infos`. -/
def w1mi : PackageInfo := { version := "2.0.0", users := [] }

/-- The maximal entry of `w6infos`. -/
def w6mi : PackageInfo := { version := "1.0.0", users := [] }

/-! ## Comparator laws -/

/-- Inversion for the lexicographic match pattern used by the comparators. -/
theorem ordMatch_lt_inv {o x : Ordering}
    (h : (match o with | .eq => x | o1 => o1) = .lt) :
    (o = .eq ∧ x = .lt) ∨ o = .lt := by
  cases o <;> simp_all

/-- Building the lexicographic match when the first component is `lt`. -/
theorem ordMatch_of_lt {x o : Ordering} (ho : o = .lt) :
    (match o with | .eq => x | o1 => o1) = .lt := by
  subst ho; rfl

/-- Reducing the lexicographic match when the first component is `eq`. -/
theorem ordMatch_of_eq {o x : Ordering} (ho : o = .eq) :
    (match o with | .eq => x | o1 => o1) = x := by
  subst ho; rfl

/-- The comparator of a linear order is lawful. -/
theorem lawful_cmpOf {α : Type} [inst : LinearOrder α] : LawfulCmp (@cmpOf α inst) where
  refl a := by simp [cmpOf]
  eq_iff a b := by
    unfold cmpOf
    split
    · constructor
      · intro h; cases h
      · intro h; subst h; simp_all [lt_irrefl]
    · split
      · simp_all
      · constructor
        · intro h; cases h
        · intro h; simp_all
  lt_iff_gt a b := by
    unfold cmpOf
    rcases lt_trichotomy a b with h | h | h
    · simp [h, not_lt_of_gt h, ne_of_gt h]
    · subst h; simp [lt_irrefl]
    · simp [h, not_lt_of_gt h, (ne_of_gt h).symm, ne_of_gt h]
  lt_trans a b d hab hbd := by
    unfold cmpOf at *
    by_cases h1 : a < b
    · by_cases h2 : b < d
      · have h3 : a < d := lt_trans h1 h2
        simp [h3]
      · simp only [if_neg h2] at hbd
        split at hbd <;> cases hbd
    · simp only [if_neg h1] at hab
      split at hab <;> cases hab

/-- Lexicographic pair comparison preserves lawfulness. -/
theorem lawful_prodCmp {α β : Type} {cα : α → α → Ordering} {cβ : β → β → Ordering}
    (hα : LawfulCmp cα) (hβ : LawfulCmp cβ) : LawfulCmp (prodCmp cα cβ) where
  refl p := by
    obtain ⟨a, b⟩ := p
    simp [prodCmp, hα.refl, hβ.refl]
  eq_iff p q := by
    obtain ⟨a₁, b₁⟩ := p
    obtain ⟨a₂, b₂⟩ := q
    simp only [prodCmp]
    constructor
    · intro h
      rcases ho : cα a₁ a₂ with _ | _ | _ <;> rw [ho] at h
      · cases h
      · have := (hα.eq_iff a₁ a₂).mp ho
        have := (hβ.eq_iff b₁ b₂).mp h
        simp_all
      · cases h
    · intro h
      obtain ⟨h1, h2⟩ := Prod.mk.injEq .. ▸ h
      subst h1; subst h2
      rw [hα.refl, hβ.refl]
  lt_iff_gt p q := by
    obtain ⟨a₁, b₁⟩ := p
    obtain ⟨a₂, b₂⟩ := q
    simp only [prodCmp]
    rcases ho : cα a₁ a₂ with _ | _ | _
    · have : cα a₂ a₁ = .gt := (hα.lt_iff_gt _ _).mp ho
      simp [this]
    · have heq := (hα.eq_iff a₁ a₂).mp ho
      subst heq
      rw [hα.refl]
      exact hβ.lt_iff_gt b₁ b₂
    · have hlt : cα a₂ a₁ = .lt := by
        rcases h2 : cα a₂ a₁ with _ | _ | _
        · rfl
        · have := (hα.eq_iff a₂ a₁).mp h2; subst this
          rw [hα.refl] at ho; cases ho
        · have := (hα.lt_iff_gt a₁ a₂).mpr h2
          rw [ho] at this; cases this
      simp [hlt, ho]
  lt_trans p q r hpq hqr := by
    obtain ⟨a₁, b₁⟩ := p
    obtain ⟨a₂, b₂⟩ := q
    obtain ⟨a₃, b₃⟩ := r
    simp only [prodCmp] at hpq hqr ⊢
    rcases ordMatch_lt_inv hpq with ⟨h12, hb12⟩ | h12
    · have := (hα.eq_iff a₁ a₂).mp h12; subst this
      rcases ordMatch_lt_inv hqr with ⟨h23, hb23⟩ | h23
      · have := (hα.eq_iff a₁ a₃).mp h23; subst this
        rw [hα.refl a₁]
        exact hβ.lt_trans _ _ _ hb12 hb23
      · exact ordMatch_of_lt h23
    · rcases ordMatch_lt_inv hqr with ⟨h23, hb23⟩ | h23
      · have := (hα.eq_iff a₂ a₃).mp h23; subst this
        exact ordMatch_of_lt h12
      · exact ordMatch_of_lt (hα.lt_trans _ _ _ h12 h23)

/-- Lexicographic list comparison preserves lawfulness. -/
theorem lawful_listCmp {α : Type} {c : α → α → Ordering} (hc : LawfulCmp c) :
    LawfulCmp (listCmp c) where
  refl l := by
    induction l with
    | nil => rfl
    | cons x xs ih => simp [listCmp, hc.refl, ih]
  eq_iff l₁ l₂ := by
    induction l₁ generalizing l₂ with
    | nil => cases l₂ <;> simp [listCmp]
    | cons x xs ih =>
      cases l₂ with
      | nil => simp [listCmp]
      | cons y ys =>
        simp only [listCmp]
        rcases ho : c x y with _ | _ | _
        · simp only [ho]
          constructor
          · intro h; cases h
          · intro h
            obtain ⟨h1, _⟩ := List.cons.injEq .. ▸ h
            subst h1; rw [hc.refl] at ho; cases ho
        · have := (hc.eq_iff x y).mp ho; subst this
          simp only [ho]
          rw [ih ys]
          simp
        · simp only [ho]
          constructor
          · intro h; cases h
          · intro h
            obtain ⟨h1, _⟩ := List.cons.injEq .. ▸ h
            subst h1; rw [hc.refl] at ho; cases ho
  lt_iff_gt l₁ l₂ := by
    induction l₁ generalizing l₂ with
    | nil => cases l₂ <;> simp [listCmp]
    | cons x xs ih =>
      cases l₂ with
      | nil => simp [listCmp]
      | cons y ys =>
        simp only [listCmp]
        rcases ho : c x y with _ | _ | _
        · have : c y x = .gt := (hc.lt_iff_gt _ _).mp ho
          simp [this]
        · have heq := (hc.eq_iff x y).mp ho; subst heq
          rw [hc.refl]
          exact ih ys
        · have hlt : c y x = .lt := by
            rcases h2 : c y x with _ | _ | _
            · rfl
            · have := (hc.eq_iff y x).mp h2; subst this
              rw [hc.refl] at ho; cases ho
            · have := (hc.lt_iff_gt x y).mpr h2
              rw [ho] at this; cases this
          simp [hlt]
  lt_trans l₁ l₂ l₃ h12 h23 := by
    induction l₁ generalizing l₂ l₃ with
    | nil =>
      cases l₂ with
      | nil => cases h12
      | cons y ys =>
        cases l₃ with
        | nil => cases h23
        | cons z zs => rfl
    | cons x xs ih =>
      cases l₂ with
      | nil => cases h12
      | cons y ys =>
        cases l₃ with
        | nil => cases h23
        | cons z zs =>
          simp only [listCmp] at h12 h23 ⊢
          rcases ordMatch_lt_inv h12 with ⟨hxy, ht12⟩ | hxy
          · have := (hc.eq_iff x y).mp hxy; subst this
            rcases ordMatch_lt_inv h23 with ⟨hyz, ht23⟩ | hyz
            · have := (hc.eq_iff x z).mp hyz; subst this
              rw [hc.refl x]
              exact ih ys zs ht12 ht23
            · exact ordMatch_of_lt hyz
          · rcases ordMatch_lt_inv h23 with ⟨hyz, ht23⟩ | hyz
            · have := (hc.eq_iff y z).mp hyz; subst this
              exact ordMatch_of_lt hxy
            · exact ordMatch_of_lt (hc.lt_trans _ _ _ hxy hyz)

/-- Pre-release identifier comparison is lawful. -/
theorem lawful_preIdCmp : LawfulCmp preIdCmp where
  refl a := by cases a <;> simp [preIdCmp, lawful_cmpOf.refl]
  eq_iff a b := by
    cases a <;> cases b <;> simp [preIdCmp, lawful_cmpOf.eq_iff]
  lt_iff_gt a b := by
    cases a <;> cases b <;> simp [preIdCmp, lawful_cmpOf.lt_iff_gt]
  lt_trans a b d hab hbd := by
    cases a <;> cases b <;> cases d <;> simp_all [preIdCmp]
    · exact lawful_cmpOf.lt_trans _ _ _ hab hbd
    · exact lawful_cmpOf.lt_trans _ _ _ hab hbd

/-- Pre-release list comparison (empty = release at the top) is lawful. -/
theorem lawful_preCmp : LawfulCmp preCmp where
  refl l := by
    cases l with
    | nil => rfl
    | cons x xs => simpa [preCmp] using (lawful_listCmp lawful_preIdCmp).refl (x :: xs)
  eq_iff l₁ l₂ := by
    cases l₁ <;> cases l₂ <;>
      simp [preCmp, (lawful_listCmp lawful_preIdCmp).eq_iff]
  lt_iff_gt l₁ l₂ := by
    cases l₁ <;> cases l₂ <;>
      simp [preCmp, (lawful_listCmp lawful_preIdCmp).lt_iff_gt]
  lt_trans l₁ l₂ l₃ h12 h23 := by
    cases l₁ with
    | nil => cases l₂ <;> cases h12
    | cons x xs =>
      cases l₂ with
      | nil =>
        cases l₃ with
        | nil => cases h23
        | cons z zs => cases h23
      | cons y ys =>
        cases l₃ with
        | nil => rfl
        | cons z zs =>
          simp only [preCmp] at *
          exact (lawful_listCmp lawful_preIdCmp).lt_trans _ _ _ h12 h23

/-- The key comparator is lawful. -/
theorem lawful_keyCmp : LawfulCmp keyCmp :=
  lawful_prodCmp lawful_cmpOf
    (lawful_prodCmp lawful_cmpOf (lawful_prodCmp lawful_cmpOf lawful_preCmp))

/-- Comparator `semverCmp` is reflexively `eq`. -/
theorem semverCmp_refl (v : SemVer) : semverCmp v v = .eq :=
  lawful_keyCmp.refl _

/-- Comparator `semverCmp` is transitive on non-`gt` (the "at most" relation). -/
theorem semverCmp_le_trans {a b d : SemVer}
    (hab : semverCmp a b ≠ .gt) (hbd : semverCmp b d ≠ .gt) :
    semverCmp a d ≠ .gt := by
  unfold semverCmp at *
  rcases h1 : keyCmp (semverKey a) (semverKey b) with _ | _ | _
  · rcases h2 : keyCmp (semverKey b) (semverKey d) with _ | _ | _
    · rw [lawful_keyCmp.lt_trans _ _ _ h1 h2]; intro h; cases h
    · have := (lawful_keyCmp.eq_iff _ _).mp h2
      rw [← this] at *
      rw [h1]; intro h; cases h
    · exact absurd h2 hbd
  · have := (lawful_keyCmp.eq_iff _ _).mp h1
    rw [this]
    exact hbd
  · exact absurd h1 hab

/-- Not-`lt` flips to not-`gt` under `semverCmp`. -/
theorem semverCmp_not_lt_flip {a b : SemVer} (h : semverCmp a b ≠ .lt) :
    semverCmp b a ≠ .gt := by
  unfold semverCmp at *
  intro hgt
  exact h ((lawful_keyCmp.lt_iff_gt _ _).mpr hgt)

/-! ## Properties of `maxByVersion` -/

/-- If the accumulator loop succeeds, every remaining version parses. -/
theorem maxByVersionGo_allparse {best : PackageInfo × SemVer} {l : List PackageInfo}
    {mi : PackageInfo} (h : maxByVersionGo best l = .ok mi) :
    ∀ i ∈ l, (semverParse i.version).isSome := by
  induction l generalizing best with
  | nil => intro i hi; cases hi
  | cons info rest ih =>
    rcases hp : semverParse info.version with _ | v
    · simp only [maxByVersionGo, hp] at h
      cases h
    · simp only [maxByVersionGo, hp] at h
      intro i hi
      rcases List.mem_cons.mp hi with hi | hi
      · subst hi; rw [hp]; rfl
      · split at h <;> exact ih h i hi

/-- If `max_by_key` succeeds, every version in the list parses. -/
theorem maxByVersion_allparse {l : List PackageInfo} {mi : PackageInfo}
    (h : maxByVersion l = .ok mi) :
    ∀ i ∈ l, (semverParse i.version).isSome := by
  cases l with
  | nil => intro i hi; cases hi
  | cons info rest =>
    rcases hp : semverParse info.version with _ | v
    · simp only [maxByVersion, hp] at h
      cases h
    · simp only [maxByVersion, hp] at h
      intro i hi
      rcases List.mem_cons.mp hi with hi | hi
      · subst hi; rw [hp]; rfl
      · exact maxByVersionGo_allparse h i hi

/-- The accumulator loop returns either the accumulator or a list element,
its version parses, and it is at least every list element and the
accumulator (under semver precedence). -/
theorem maxByVersionGo_spec {best : PackageInfo × SemVer} {l : List PackageInfo}
    {mi : PackageInfo} (hbest : semverParse best.1.version = some best.2)
    (h : maxByVersionGo best l = .ok mi) :
    (mi = best.1 ∨ mi ∈ l) ∧
      ∃ dv, semverParse mi.version = some dv ∧
        semverCmp best.2 dv ≠ .gt ∧
        ∀ i ∈ l, ∀ w, semverParse i.version = some w → semverCmp w dv ≠ .gt := by
  induction l generalizing best with
  | nil =>
    simp only [maxByVersionGo] at h
    obtain rfl : best.1 = mi := by cases h; rfl
    refine ⟨Or.inl rfl, best.2, hbest, ?_, ?_⟩
    · rw [semverCmp_refl]; intro hx; cases hx
    · intro i hi; cases hi
  | cons info rest ih =>
    rcases hp : semverParse info.version with _ | v
    · simp only [maxByVersionGo, hp] at h
      cases h
    · simp only [maxByVersionGo, hp] at h
      by_cases hcmp : semverCmp v best.2 = .lt
      · rw [if_pos hcmp] at h
        obtain ⟨hmem, dv, hdv, hle, hall⟩ := ih hbest h
        refine ⟨?_, dv, hdv, hle, ?_⟩
        · rcases hmem with hmem | hmem
          · exact Or.inl hmem
          · exact Or.inr (List.mem_cons_of_mem _ hmem)
        · intro i hi w hw
          rcases List.mem_cons.mp hi with hi | hi
          · subst hi
            rw [hp] at hw
            obtain rfl : v = w := by cases hw; rfl
            have hvb : semverCmp v best.2 ≠ .gt := by rw [hcmp]; intro hx; cases hx
            exact semverCmp_le_trans hvb hle
          · exact hall i hi w hw
      · rw [if_neg hcmp] at h
        obtain ⟨hmem, dv, hdv, hle, hall⟩ := @ih (info, v) hp h
        refine ⟨?_, dv, hdv, ?_, ?_⟩
        · rcases hmem with hmem | hmem
          · exact Or.inr (hmem ▸ List.mem_cons_self _ _)
          · exact Or.inr (List.mem_cons_of_mem _ hmem)
        · exact semverCmp_le_trans (semverCmp_not_lt_flip hcmp) hle
        · intro i hi w hw
          rcases List.mem_cons.mp hi with hi | hi
          · subst hi
            rw [hp] at hw
            obtain rfl : v = w := by cases hw; rfl
            exact hle
          · exact hall i hi w hw

/-- If `max_by_key` succeeds, its result is a list element whose parsed
version is a maximum (under semver precedence) of all parsed versions. -/
theorem maxByVersion_spec {l : List PackageInfo} {mi : PackageInfo}
    (h : maxByVersion l = .ok mi) :
    mi ∈ l ∧
      ∃ dv, semverParse mi.version = some dv ∧
        ∀ i ∈ l, ∀ w, semverParse i.version = some w → semverCmp w dv ≠ .gt := by
  cases l with
  | nil => cases h
  | cons info rest =>
    rcases hp : semverParse info.version with _ | v
    · simp only [maxByVersion, hp] at h
      cases h
    · simp only [maxByVersion, hp] at h
      obtain ⟨hmem, dv, hdv, hle, hall⟩ := @maxByVersionGo_spec (info, v) rest mi hp h
      refine ⟨?_, dv, hdv, ?_⟩
      · rcases hmem with hmem | hmem
        · exact hmem ▸ List.mem_cons_self _ _
        · exact List.mem_cons_of_mem _ hmem
      · intro i hi w hw
        rcases List.mem_cons.mp hi with hi | hi
        · subst hi
          rw [hp] at hw
          obtain rfl : v = w := by cases hw; rfl
          exact hle
        · exact hall i hi w hw

/-! ## Properties of `collectDups` and the detector -/

/-- When every version parses, the inner detector loop succeeds and
produces exactly one `Duplicate` (in order, with that entry's users) for
every entry whose parsed version differs from the default version. -/
theorem collectDups_ok {key : String} {dv lv : SemVer} {l : List PackageInfo}
    (hall : ∀ i ∈ l, (semverParse i.version).isSome) :
    collectDups key dv lv l =
      .ok ((l.filter (fun i => decide (semverParse i.version ≠ some dv))).map
        (fun i => { package := key, version := i.version,
                    latest := lv.render, users := i.users })) := by
  induction l with
  | nil => rfl
  | cons info rest ih =>
    have hinfo := hall info (List.mem_cons_self _ _)
    rcases hp : semverParse info.version with _ | v
    · rw [hp] at hinfo; cases hinfo
    · have hrest := ih (fun i hi => hall i (List.mem_cons_of_mem _ hi))
      simp only [collectDups, hp, hrest, List.filter_cons]
      by_cases hv : v = dv
      · subst hv
        simp [hp]
      · have hne : some v ≠ some dv := by
          intro hx
          exact hv (by cases hx; rfl)
        simp [hp, hv, hne]

/-- Any duplicate in the inner loop's output comes from an entry of the
list: same version string, same users, rendered latest, and a parsed
version different from the default version. -/
theorem collectDups_mem {key : String} {dv lv : SemVer} {l : List PackageInfo}
    {ds : List Duplicate} {d : Duplicate}
    (h : collectDups key dv lv l = .ok ds) (hd : d ∈ ds) :
    d.package = key ∧ d.latest = lv.render ∧
      ∃ info ∈ l, d.version = info.version ∧ d.users = info.users ∧
        ∃ w, semverParse info.version = some w ∧ w ≠ dv := by
  induction l generalizing ds with
  | nil =>
    obtain rfl : ([] : List Duplicate) = ds := by cases h; rfl
    cases hd
  | cons info rest ih =>
    rcases hp : semverParse info.version with _ | v
    · simp only [collectDups, hp] at h
      cases h
    · simp only [collectDups, hp] at h
      rcases hr : collectDups key dv lv rest with e | ds2
      · rw [hr] at h; cases h
      · simp only [hr] at h
        by_cases hv : v ≠ dv
        · rw [if_pos hv] at h
          have hds : ds = { package := key, version := info.version, latest := lv.render, users := info.users } :: ds2 := by cases h; rfl
          subst hds
          rcases List.mem_cons.mp hd with hd | hd
          · subst hd
            exact ⟨rfl, rfl, info, List.mem_cons_self _ _, rfl, rfl, v, hp, hv⟩
          · obtain ⟨h1, h2, i2, hi2, h3⟩ := ih hr hd
            exact ⟨h1, h2, i2, List.mem_cons_of_mem _ hi2, h3⟩
        · rw [if_neg hv] at h
          obtain rfl : ds2 = ds := by cases h; rfl
          obtain ⟨h1, h2, i2, hi2, h3⟩ := ih hr hd
          exact ⟨h1, h2, i2, List.mem_cons_of_mem _ hi2, h3⟩

/-- Inversion of a successful `detectEntry` on a duplicated name. -/
theorem detectEntry_ok_inv {key : String} {infos : List PackageInfo} {offline : Bool}
    {lk : String → Option String} {ds : List Duplicate}
    (h : detectEntry key infos offline lk = .ok ds) (hlen : 1 < infos.length) :
    ∃ mi dv lv, maxByVersion infos = .ok mi ∧
      semverParse mi.version = some dv ∧
      semverParse (if offline then mi.version else (lk key).getD mi.version) = some lv ∧
      collectDups key dv lv infos = .ok ds := by
  unfold detectEntry at h
  rw [if_pos hlen] at h
  rcases hm : maxByVersion infos with e | mi
  · rw [hm] at h; cases h
  · simp only [hm] at h
    rcases hdv : semverParse mi.version with _ | dv
    · simp only [hdv] at h
      cases h
    · simp only [hdv] at h
      rcases hlv : semverParse (if offline then mi.version else (lk key).getD mi.version)
        with _ | lv
      · simp only [hlv] at h
        cases h
      · simp only [hlv] at h
        exact ⟨mi, dv, lv, rfl, hdv, hlv, h⟩

/-- Membership inversion for `detectEntry`: any produced duplicate names
the key, the list is genuinely duplicated, and the duplicate matches an
entry whose parsed version differs from the parsed default version. -/
theorem detectEntry_mem {key : String} {infos : List PackageInfo} {offline : Bool}
    {lk : String → Option String} {ds : List Duplicate} {d : Duplicate}
    (h : detectEntry key infos offline lk = .ok ds) (hd : d ∈ ds) :
    1 < infos.length ∧ d.package = key ∧
      ∃ mi dv, maxByVersion infos = .ok mi ∧ semverParse mi.version = some dv ∧
        ∃ info ∈ infos, d.version = info.version ∧ d.users = info.users ∧
          ∃ w, semverParse info.version = some w ∧ w ≠ dv := by
  by_cases hlen : 1 < infos.length
  · obtain ⟨mi, dv, lv, hm, hdv, hlv, hc⟩ := detectEntry_ok_inv h hlen
    obtain ⟨h1, _, info, hinfo, h3⟩ := collectDups_mem hc hd
    exact ⟨hlen, h1, mi, dv, hm, hdv, info, hinfo, h3⟩
  · unfold detectEntry at h
    rw [if_neg hlen] at h
    obtain rfl : ([] : List Duplicate) = ds := by cases h; rfl
    cases hd

/-- Membership inversion for the detection loop: every duplicate of a
successful run comes from a successful `detectEntry` of a listed key. -/
theorem detectSorted_mem {m : PackageMap} {offline : Bool}
    {lk : String → Option String} {keys : List String} {dups : List Duplicate}
    {d : Duplicate} (h : detectSorted m offline lk keys = .ok dups) (hd : d ∈ dups) :
    ∃ key infos ds, mapGet m key = some infos ∧
      detectEntry key infos offline lk = .ok ds ∧ d ∈ ds := by
  induction keys generalizing dups with
  | nil =>
    obtain rfl : ([] : List Duplicate) = dups := by cases h; rfl
    cases hd
  | cons key rest ih =>
    rcases hg : mapGet m key with _ | infos
    · simp only [detectSorted, hg] at h
      cases h
    · simp only [detectSorted, hg] at h
      rcases he : detectEntry key infos offline lk with e | ds1
      · rw [he] at h; cases h
      · simp only [he] at h
        rcases hr : detectSorted m offline lk rest with e | ds2
        · rw [hr] at h; cases h
        · simp only [hr] at h
          obtain rfl : ds1 ++ ds2 = dups := by cases h; rfl
          rcases List.mem_append.mp hd with hd1 | hd2
          · exact ⟨key, infos, ds1, hg, he, hd1⟩
          · exact ih hr hd2

/-- If a listed key's entry fails, the whole detection loop fails. -/
theorem detectSorted_err {m : PackageMap} {offline : Bool}
    {lk : String → Option String} {keys : List String} {key : String}
    {infos : List PackageInfo} (hk : key ∈ keys) (hg : mapGet m key = some infos)
    (he : ∀ ds, detectEntry key infos offline lk ≠ .ok ds) :
    ∀ dups, detectSorted m offline lk keys ≠ .ok dups := by
  induction keys with
  | nil => cases hk
  | cons k rest ih =>
    intro dups h
    rcases hg2 : mapGet m k with _ | infos2
    · simp only [detectSorted, hg2] at h
      cases h
    · simp only [detectSorted, hg2] at h
      rcases he2 : detectEntry k infos2 offline lk with e | ds1
      · rw [he2] at h; cases h
      · simp only [he2] at h
        rcases hr : detectSorted m offline lk rest with e | ds2
        · rw [hr] at h; cases h
        · rcases List.mem_cons.mp hk with hk | hk
          · subst hk
            rw [hg] at hg2
            obtain rfl : infos = infos2 := by cases hg2; rfl
            exact he ds1 he2
          · exact ih hk ds2 hr

/-! ## Properties of the index build -/

/-- Lookup after an in-place update. -/
theorem mapGet_update_self {m : PackageMap} {n : String}
    {f : List PackageInfo → List PackageInfo} :
    mapGet (mapUpdate m n f) n = (mapGet m n).map f := by
  induction m with
  | nil => rfl
  | cons e rest ih =>
    obtain ⟨k, v⟩ := e
    by_cases hk : k = n
    · simp [mapUpdate, mapGet, hk]
    · simp [mapUpdate, mapGet, hk, ih]

/-- An in-place update leaves other keys untouched. -/
theorem mapGet_update_other {m : PackageMap} {n n2 : String}
    {f : List PackageInfo → List PackageInfo} (hne : n ≠ n2) :
    mapGet (mapUpdate m n f) n2 = mapGet m n2 := by
  induction m with
  | nil => rfl
  | cons e rest ih =>
    obtain ⟨k, v⟩ := e
    by_cases hk : k = n
    · subst hk
      simp [mapUpdate, mapGet, hne]
    · simp [mapUpdate, mapGet, hk, ih]

/-- Lookup distributes over appended association lists. -/
theorem mapGet_append {m₁ m₂ : PackageMap} {n : String} :
    mapGet (m₁ ++ m₂) n =
      match mapGet m₁ n with
      | some v => some v
      | none => mapGet m₂ n := by
  induction m₁ with
  | nil => rfl
  | cons e rest ih =>
    obtain ⟨k, v⟩ := e
    by_cases hk : k = n
    · simp [mapGet, hk]
    · simp [mapGet, hk, ih]

/-- One pass-1 step appends exactly the new record's version under its
name and nothing anywhere else. -/
theorem versionsOf_insert (m : PackageMap) (p : Package) (n : String) :
    versionsOf
      (match mapGet m p.name with
       | some _ => mapUpdate m p.name (fun s => s ++ [{ version := p.version, users := [] }])
       | none => m ++ [(p.name, [{ version := p.version, users := [] }])]) n =
      versionsOf m n ++ (if p.name = n then [p.version] else []) := by
  rcases hg : mapGet m p.name with _ | s
  · by_cases hn : p.name = n
    · subst hn
      simp only [versionsOf, mapGet_append, hg, if_pos rfl]
      simp [mapGet]
    · simp only [versionsOf, mapGet_append, if_neg hn]
      rcases hg2 : mapGet m n with _ | s2
      · simp [mapGet, hn, hg2]
      · simp [mapGet, hn, hg2]
  · by_cases hn : p.name = n
    · subst hn
      simp only [versionsOf, mapGet_update_self, hg, if_pos rfl, Option.map_some]
      simp
    · simp only [versionsOf, mapGet_update_other hn, if_neg hn]
      simp

/-- Pass 1 appends, under each name, the versions of the records bearing
that name, in input order. -/
theorem versionsOf_pass1 (records : List Package) (m : PackageMap) (n : String) :
    versionsOf (pass1 m records) n =
      versionsOf m n ++
        (records.filter (fun p => p.name == n)).map (fun p => p.version) := by
  induction records generalizing m with
  | nil => simp [pass1]
  | cons p rest ih =>
    simp only [pass1]
    rw [ih]
    rw [versionsOf_insert m p n]
    by_cases hn : p.name = n
    · simp [List.filter_cons, hn]
    · have : (p.name == n) = false := by simp [hn]
      simp [List.filter_cons, this, hn]

/-- Step `addDep` never changes the stored version strings of any name. -/
theorem versionsOf_addDep {m : PackageMap} {p : Package} {dep : Dependency}
    (n : String) : versionsOf (addDep m p dep).1 n = versionsOf m n := by
  unfold addDep
  rcases hg : mapGet m dep.name with _ | s
  · rfl
  · by_cases hn : dep.name = n
    · subst hn
      simp only [versionsOf, mapGet_update_self, hg, Option.map_some]
      simp [PackageInfo.version]
      intro i hi
      split <;> rfl
    · simp only [versionsOf, mapGet_update_other hn]

/-- Step `addDep` never changes which names are present. -/
theorem addDep_domain {m : PackageMap} {p : Package} {dep : Dependency}
    (n : String) : (mapGet (addDep m p dep).1 n).isSome = (mapGet m n).isSome := by
  unfold addDep
  rcases hg : mapGet m dep.name with _ | s
  · rfl
  · by_cases hn : dep.name = n
    · subst hn
      simp [mapGet_update_self, hg]
    · simp [mapGet_update_other hn]

/-- Loop `addDeps` never changes the stored version strings of any name. -/
theorem versionsOf_addDeps {m : PackageMap} {p : Package} {deps : List Dependency}
    (n : String) : versionsOf (addDeps m p deps).1 n = versionsOf m n := by
  induction deps generalizing m with
  | nil => rfl
  | cons dep rest ih =>
    simp only [addDeps]
    rw [ih, versionsOf_addDep]

/-- Loop `addDeps` never changes which names are present. -/
theorem addDeps_domain {m : PackageMap} {p : Package} {deps : List Dependency}
    (n : String) : (mapGet (addDeps m p deps).1 n).isSome = (mapGet m n).isSome := by
  induction deps generalizing m with
  | nil => rfl
  | cons dep rest ih =>
    simp only [addDeps]
    rw [ih, addDep_domain]

/-- Pass 2 never changes the stored version strings of any name. -/
theorem versionsOf_pass2 {m : PackageMap} {ps : List Package} (n : String) :
    versionsOf (pass2 m ps).1 n = versionsOf m n := by
  induction ps generalizing m with
  | nil => rfl
  | cons p rest ih =>
    simp only [pass2]
    rw [ih, versionsOf_addDeps]

/-- Pass 2 never changes which names are present. -/
theorem pass2_domain {m : PackageMap} {ps : List Package} (n : String) :
    (mapGet (pass2 m ps).1 n).isSome = (mapGet m n).isSome := by
  induction ps generalizing m with
  | nil => rfl
  | cons p rest ih =>
    simp only [pass2]
    rw [ih, addDeps_domain]

/-- The versions stored in the built index under a name are exactly the
versions of the input records bearing that name, in input order —
one entry per record, with no deduplication. -/
theorem versionsOf_buildMap (records : List Package) (n : String) :
    versionsOf (buildMap records) n =
      (records.filter (fun p => p.name == n)).map (fun p => p.version) := by
  unfold buildMap
  rw [versionsOf_pass2, versionsOf_pass1]
  simp [versionsOf, mapGet]

/-- A version stored under `n` forces the lookup to succeed with an entry
list containing an entry carrying that version string. -/
theorem versionsOf_mem_entry {m : PackageMap} {n v : String}
    (h : v ∈ versionsOf m n) :
    ∃ infos, mapGet m n = some infos ∧ ∃ info ∈ infos, info.version = v := by
  unfold versionsOf at h
  rcases hg : mapGet m n with _ | infos
  · rw [hg] at h; cases h
  · rw [hg] at h
    simp only [Option.getD_some] at h
    obtain ⟨info, hinfo, hv⟩ := List.mem_map.mp h
    exact ⟨infos, rfl, info, hinfo, hv⟩

/-- Conversely, entries found by lookup contribute their version. -/
theorem entry_mem_versionsOf {m : PackageMap} {n : String} {infos : List PackageInfo}
    {info : PackageInfo} (hg : mapGet m n = some infos) (hi : info ∈ infos) :
    info.version ∈ versionsOf m n := by
  unfold versionsOf
  rw [hg]
  exact List.mem_map_of_mem _ hi

/-! ## Diagnostics of pass 2 -/

/-- Loop `addDeps` reports every dependency whose name is absent (absence is
stable across the fold because `addDep` preserves the domain). -/
theorem addDeps_diag {m : PackageMap} {p : Package} {deps : List Dependency}
    {dep : Dependency} (hdep : dep ∈ deps) (hg : mapGet m dep.name = none) :
    ("ERROR: " ++ dep.name ++ " not found") ∈ (addDeps m p deps).2 := by
  induction deps generalizing m with
  | nil => cases hdep
  | cons d rest ih =>
    simp only [addDeps]
    rcases List.mem_cons.mp hdep with hd | hd
    · subst hd
      unfold addDep
      rw [hg]
      simp
    · have hg2 : mapGet (addDep m p d).1 dep.name = none := by
        have := @addDep_domain m p d dep.name
        rw [hg] at this
        rcases hx : mapGet (addDep m p d).1 dep.name with _ | s
        · rfl
        · rw [hx] at this; cases this
      have := @ih (addDep m p d).1 hd hg2
      simp only [List.mem_append]
      right
      exact this

/-- Pass 2 reports every dependency edge whose target name is absent. -/
theorem pass2_diag {m : PackageMap} {ps : List Package} {p : Package}
    {dep : Dependency} (hp : p ∈ ps) (hdep : dep ∈ p.dependencies)
    (hg : mapGet m dep.name = none) :
    ("ERROR: " ++ dep.name ++ " not found") ∈ (pass2 m ps).2 := by
  induction ps generalizing m with
  | nil => cases hp
  | cons q rest ih =>
    simp only [pass2, List.mem_append]
    rcases List.mem_cons.mp hp with hq | hq
    · subst hq
      exact Or.inl (addDeps_diag hdep hg)
    · right
      have hg2 : mapGet (addDeps m q q.dependencies).1 dep.name = none := by
        have := @addDeps_domain m q q.dependencies dep.name
        rw [hg] at this
        rcases hx : mapGet (addDeps m q q.dependencies).1 dep.name with _ | s
        · rfl
        · rw [hx] at this; cases this
      exact ih hq hg2

/-! ## The `UsersOk` invariant -/

/-- Pass 1 only creates entries with empty user lists. -/
theorem pass1_allUsersNil {m : PackageMap} {records : List Package}
    (hm : AllUsersNil m) : AllUsersNil (pass1 m records) := by
  induction records generalizing m with
  | nil => exact hm
  | cons p rest ih =>
    simp only [pass1]
    apply ih
    intro n infos hg info hinfo
    rcases hg0 : mapGet m p.name with _ | s
    · rw [hg0] at hg
      rw [mapGet_append] at hg
      rcases hg1 : mapGet m n with _ | s1
      · rw [hg1] at hg
        by_cases hn : p.name = n
        · subst hn
          simp only [mapGet, if_pos rfl] at hg
          obtain rfl : [{ version := p.version, users := [] }] = infos := by
            cases hg; rfl
          rcases List.mem_cons.mp hinfo with hi | hi
          · subst hi; rfl
          · cases hi
        · simp only [mapGet, if_neg hn] at hg
          cases hg
      · rw [hg1] at hg
        obtain rfl : s1 = infos := by cases hg; rfl
        exact hm n s1 hg1 info hinfo
    · rw [hg0] at hg
      by_cases hn : p.name = n
      · subst hn
        rw [mapGet_update_self, hg0] at hg
        obtain rfl : s ++ [{ version := p.version, users := [] }] = infos := by
          cases hg; rfl
        rcases List.mem_append.mp hinfo with hi | hi
        · exact hm p.name s hg0 info hi
        · rcases List.mem_cons.mp hi with hi2 | hi2
          · subst hi2; rfl
          · cases hi2
      · rw [mapGet_update_other hn] at hg
        exact hm n infos hg info hinfo

/-- A map whose user lists are all empty vacuously satisfies `UsersOk`. -/
theorem usersOk_of_allUsersNil {records : List Package} {m : PackageMap}
    (hm : AllUsersNil m) : UsersOk records m := by
  intro n infos hg info hinfo u hu
  rw [hm n infos hg info hinfo] at hu
  cases hu

/-- Step `addDep` preserves `UsersOk` when the edge really is declared by a
record of the input. -/
theorem addDep_usersOk {records : List Package} {m : PackageMap} {p : Package}
    {dep : Dependency} (hp : p ∈ records) (hdep : dep ∈ p.dependencies)
    (hm : UsersOk records m) : UsersOk records (addDep m p dep).1 := by
  intro n infos hg info hinfo u hu
  unfold addDep at hg
  rcases hg0 : mapGet m dep.name with _ | s
  · rw [hg0] at hg
    exact hm n infos hg info hinfo u hu
  · rw [hg0] at hg
    by_cases hn : dep.name = n
    · subst hn
      rw [mapGet_update_self, hg0] at hg
      obtain rfl :
          s.map (fun info =>
            if info.version == dep.version then
              { info with users := info.users ++ [p] }
            else info) = infos := by
        cases hg; rfl
      obtain ⟨info0, hinfo0, heq⟩ := List.mem_map.mp hinfo
      by_cases hv : info0.version == dep.version
      · rw [if_pos hv] at heq
        subst heq
        simp only at hu
        rcases List.mem_append.mp hu with hu1 | hu1
        · have := hm dep.name s hg0 info0 hinfo0 u hu1
          simpa using this
        · rcases List.mem_cons.mp hu1 with hu2 | hu2
          · subst hu2
            refine ⟨hp, dep, hdep, rfl, ?_⟩
            simp only
            exact (beq_iff_eq.mp hv).symm
          · cases hu2
      · rw [if_neg hv] at heq
        subst heq
        exact hm dep.name s hg0 info0 hinfo0 u hu
    · rw [mapGet_update_other hn] at hg
      exact hm n infos hg info hinfo u hu

/-- Loop `addDeps` preserves `UsersOk`. -/
theorem addDeps_usersOk {records : List Package} {m : PackageMap} {p : Package}
    {deps : List Dependency} (hp : p ∈ records)
    (hdeps : ∀ d ∈ deps, d ∈ p.dependencies) (hm : UsersOk records m) :
    UsersOk records (addDeps m p deps).1 := by
  induction deps generalizing m with
  | nil => exact hm
  | cons d rest ih =>
    simp only [addDeps]
    exact ih (fun d2 hd2 => hdeps d2 (List.mem_cons_of_mem _ hd2))
      (addDep_usersOk hp (hdeps d (List.mem_cons_self _ _)) hm)

/-- Pass 2 preserves `UsersOk` when it processes input records. -/
theorem pass2_usersOk {records : List Package} {m : PackageMap} {ps : List Package}
    (hps : ∀ q ∈ ps, q ∈ records) (hm : UsersOk records m) :
    UsersOk records (pass2 m ps).1 := by
  induction ps generalizing m with
  | nil => exact hm
  | cons q rest ih =>
    simp only [pass2]
    exact ih (fun q2 hq2 => hps q2 (List.mem_cons_of_mem _ hq2))
      (addDeps_usersOk (hps q (List.mem_cons_self _ _)) (fun d hd => hd) hm)

/-- The built index satisfies `UsersOk`: every stored user is an input
record declaring a dependency on exactly that (name, version). -/
theorem buildMap_usersOk (records : List Package) :
    UsersOk records (buildMap records) := by
  unfold buildMap
  exact pass2_usersOk (fun q hq => hq)
    (usersOk_of_allUsersNil (pass1_allUsersNil (fun n infos hg => by cases hg)))

/-! ## Properties of the chain tracer -/

/-- Inversion of the walk's `find` step: the chosen user is among the
current node's users, and the entry moved to is found under the user's
name with the user's version. -/
theorem findUserStep_sound {m : PackageMap} {users : List Package}
    {u : Package} {info : PackageInfo} (h : findUserStep m users = some (u, info)) :
    u ∈ users ∧ ∃ infos, mapGet m u.name = some infos ∧
      info ∈ infos ∧ info.version = u.version := by
  induction users with
  | nil => cases h
  | cons u0 rest ih =>
    rcases hg : mapGet m u0.name with _ | infos0
    · simp only [findUserStep, hg] at h
      obtain ⟨h1, h2⟩ := ih h
      exact ⟨List.mem_cons_of_mem _ h1, h2⟩
    · simp only [findUserStep, hg] at h
      rcases hf : infos0.find? (fun info => info.version == u0.version) with _ | info0
      · rw [hf] at h
        obtain ⟨h1, h2⟩ := ih h
        exact ⟨List.mem_cons_of_mem _ h1, h2⟩
      · rw [hf] at h
        obtain ⟨rfl, rfl⟩ : u0 = u ∧ info0 = info := by
          refine ⟨?_, ?_⟩ <;> cases h <;> rfl
        refine ⟨List.mem_cons_self _ _, infos0, hg, List.mem_of_find?_eq_some hf, ?_⟩
        have := List.find?_some hf
        exact beq_iff_eq.mp this

/-- The loop of the tracer never produces the entry-point panic. -/
theorem chainLoop_ne_panicked {m : PackageMap} :
    ∀ fuel cur chain, chainLoop m fuel cur chain ≠ .panicked := by
  intro fuel
  induction fuel with
  | zero => intro cur chain h; cases h
  | succ n ih =>
    intro cur chain h
    simp only [chainLoop] at h
    rcases hf : findUserStep m cur.users with _ | p
    · rw [hf] at h; cases h
    · obtain ⟨u, info⟩ := p
      rw [hf] at h
      exact ih info _ h

/-- Appending a link to a chained list keeps it chained when the new
link is related to the old last element. -/
theorem chainedBy_append {α : Type} {R : α → α → Prop} {l : List α} {b last : α}
    (hc : ChainedBy R l) (hl : l.getLast? = some last) (hR : R last b) :
    ChainedBy R (l ++ [b]) := by
  induction l generalizing last with
  | nil => cases hl
  | cons a rest ih =>
    cases rest with
    | nil =>
      obtain rfl : a = last := by cases hl; rfl
      exact ⟨hR, trivial⟩
    | cons c rest2 =>
      obtain ⟨hac, hrest⟩ := hc
      rw [List.getLast?_cons_cons] at hl
      exact ⟨hac, ih hrest hl hR⟩

/-- A non-empty list keeps its head under concatenation. -/
theorem head?_append_singleton {α : Type} {l : List α} {b : α} (h : l ≠ []) :
    (l ++ [b]).head? = l.head? := by
  cases l with
  | nil => exact absurd rfl h
  | cons a rest => rfl

/-- Soundness of the tracer loop: starting from an entry of the map that
matches the chain's last label, a finished walk preserves the head label
and only appends valid chain links. -/
theorem chainLoop_sound {records : List Package} {m : PackageMap}
    (hok : UsersOk records m) :
    ∀ fuel cur chain out,
      (∃ last, chain.getLast? = some last ∧
         ∃ infos, mapGet m last.1 = some infos ∧ cur ∈ infos ∧ cur.version = last.2) →
      ChainedBy (chainStep records) chain →
      chainLoop m fuel cur chain = .done out →
      out.head? = chain.head? ∧ ChainedBy (chainStep records) out := by
  intro fuel
  induction fuel with
  | zero => intro cur chain out hinv hc h; cases h
  | succ n ih =>
    intro cur chain out hinv hc h
    simp only [chainLoop] at h
    rcases hf : findUserStep m cur.users with _ | p
    · rw [hf] at h
      obtain rfl : chain = out := by cases h; rfl
      exact ⟨rfl, hc⟩
    · obtain ⟨u, info⟩ := p
      rw [hf] at h
      obtain ⟨last, hlast, infos, hg, hcur, hver⟩ := hinv
      obtain ⟨humem, infos2, hg2, hinfo2, hver2⟩ := findUserStep_sound hf
      obtain ⟨hurec, hudep⟩ := hok last.1 infos hg cur hcur u humem
      have hstep : chainStep records last (u.name, u.version) := by
        refine ⟨u, hurec, rfl, rfl, ?_⟩
        rw [← hver]
        exact hudep
      have hne : chain ≠ [] := by
        intro hx
        rw [hx] at hlast
        cases hlast
      have hinv2 : ∃ last2, (chain ++ [(u.name, u.version)]).getLast? = some last2 ∧
          ∃ infos3, mapGet m last2.1 = some infos3 ∧ info ∈ infos3 ∧
            info.version = last2.2 := by
        refine ⟨(u.name, u.version), ?_, infos2, hg2, hinfo2, hver2⟩
        exact List.getLast?_concat _
      have hc2 : ChainedBy (chainStep records) (chain ++ [(u.name, u.version)]) :=
        chainedBy_append hc hlast hstep
      obtain ⟨hh, hcout⟩ := ih info _ out hinv2 hc2 h
      rw [hh, head?_append_singleton hne]
      exact ⟨rfl, hcout⟩

/-- Soundness of `get_usage_chain` over a map satisfying `UsersOk`: a
finished walk starts at the queried label, and every link is justified
by a declared dependency of an input record. -/
theorem get_usage_chain_sound {records : List Package} {m : PackageMap}
    {fuel : Nat} {p : Package} {chain : List (String × String)}
    (hok : UsersOk records m) (h : get_usage_chain m fuel p = .done chain) :
    chain.head? = some (p.name, p.version) ∧
      ChainedBy (chainStep records) chain := by
  unfold get_usage_chain at h
  rcases hg : mapGet m p.name with _ | infos
  · rw [hg] at h; cases h
  · simp only [hg] at h
    rcases hf : infos.find? (fun info => info.version == p.version) with _ | cur
    · simp only [hf] at h; cases h
    · simp only [hf] at h
      have hcur : cur ∈ infos := List.mem_of_find?_eq_some hf
      have hpred := List.find?_some hf
      have hver : cur.version = p.version := by simpa using hpred
      have hinv : ∃ last, ([(p.name, p.version)] :
            List (String × String)).getLast? = some last ∧
          ∃ infos2, mapGet m last.1 = some infos2 ∧ cur ∈ infos2 ∧
            cur.version = last.2 := by
        exact ⟨(p.name, p.version), rfl, infos, hg, hcur, hver⟩
      obtain ⟨hh, hc⟩ := chainLoop_sound hok fuel cur [(p.name, p.version)] chain
        hinv trivial h
      exact ⟨hh, hc⟩

/-! ## Counting duplicates -/

/-- Entries that do not parse to the default version survive the filter. -/
theorem filter_ne_of_none {l : List PackageInfo} {dv : SemVer}
    (h : ∀ i ∈ l, semverParse i.version ≠ some dv) :
    l.filter (fun i => decide (semverParse i.version ≠ some dv)) = l := by
  induction l with
  | nil => rfl
  | cons a rest ih =>
    have ha := h a (List.mem_cons_self _ _)
    rw [List.filter_cons, if_pos (show decide (semverParse a.version ≠ some dv) = true by
      rw [decide_eq_true_eq]; exact ha)]
    rw [ih (fun i hi => h i (List.mem_cons_of_mem _ hi))]

/-- With pairwise semver-distinct entries, removing the one that parses
to the default version leaves exactly `length - 1` entries. -/
theorem filter_ne_length {l : List PackageInfo} {mi : PackageInfo} {dv : SemVer}
    (hpair : l.Pairwise parsedDistinct) (hmem : mi ∈ l)
    (hdv : semverParse mi.version = some dv) :
    (l.filter (fun i => decide (semverParse i.version ≠ some dv))).length =
      l.length - 1 := by
  induction l with
  | nil => cases hmem
  | cons a rest ih =>
    obtain ⟨hhead, hrest⟩ := List.pairwise_cons.mp hpair
    by_cases hpa : semverParse a.version = some dv
    · have hothers : ∀ b ∈ rest, semverParse b.version ≠ some dv := by
        intro b hb hbv
        rcases hhead b hb with hc | hc
        · rw [hpa] at hc; cases hc
        · rw [hpa, hbv] at hc; exact hc rfl
      rw [List.filter_cons, if_neg (by simp [hpa])]
      rw [filter_ne_of_none hothers]
      simp
    · have hmi : mi ∈ rest := by
        rcases List.mem_cons.mp hmem with hm | hm
        · subst hm
          exact absurd hdv hpa
        · exact hm
      have hlen : 1 ≤ rest.length := List.length_pos.mpr (List.ne_nil_of_mem hmi)
      rw [List.filter_cons, if_pos (show decide (semverParse a.version ≠ some dv) = true by
        rw [decide_eq_true_eq]; exact hpa)]
      simp only [List.length_cons]
      rw [ih hrest hmi]
      omega

/-! ## Key membership in the sorted key list -/

/-- The inserted element is in the result. -/
theorem mem_insertSortedStr_self (s : String) (l : List String) :
    s ∈ insertSortedStr s l := by
  induction l with
  | nil => exact List.mem_singleton.mpr rfl
  | cons t rest ih =>
    unfold insertSortedStr
    split
    · exact List.mem_cons_of_mem _ ih
    · exact List.mem_cons_self _ _

/-- Insertion keeps existing elements. -/
theorem mem_insertSortedStr_of_mem {n : String} (s : String) {l : List String}
    (h : n ∈ l) : n ∈ insertSortedStr s l := by
  induction l with
  | nil => cases h
  | cons t rest ih =>
    unfold insertSortedStr
    split
    · rcases List.mem_cons.mp h with hn | hn
      · subst hn
        exact List.mem_cons_self _ _
      · exact List.mem_cons_of_mem _ (ih hn)
    · exact List.mem_cons_of_mem _ h

/-- Sorting preserves membership. -/
theorem mem_sortStrings {n : String} {l : List String} (h : n ∈ l) :
    n ∈ sortStrings l := by
  induction l with
  | nil => cases h
  | cons k rest ih =>
    unfold sortStrings
    rcases List.mem_cons.mp h with hn | hn
    · subst hn
      exact mem_insertSortedStr_self _ _
    · exact mem_insertSortedStr_of_mem _ (ih hn)

/-- A successful lookup means the key is among the map's keys. -/
theorem mapGet_some_mem_keys {m : PackageMap} {n : String} {infos : List PackageInfo}
    (h : mapGet m n = some infos) : n ∈ m.map (fun e => e.1) := by
  induction m with
  | nil => cases h
  | cons e rest ih =>
    obtain ⟨k, v⟩ := e
    by_cases hk : k = n
    · subst hk
      exact List.mem_cons_self _ _
    · simp only [mapGet, if_neg hk] at h
      exact List.mem_cons_of_mem _ (ih h)

/-- A name present in the map is scanned by the detection loop. -/
theorem mem_sortKeys {m : PackageMap} {n : String} {infos : List PackageInfo}
    (h : mapGet m n = some infos) : n ∈ sortKeys m :=
  mem_sortStrings (mapGet_some_mem_keys h)

/-! ## Offline equivalence -/

/-- When the external lookup fails for a key, the online branch computes
exactly what the offline branch computes for that key. -/
theorem detectEntry_offline_eq {key : String} {infos : List PackageInfo}
    {lk : String → Option String} (hlk : lk key = none) :
    detectEntry key infos false lk = detectEntry key infos true lk := by
  simp [detectEntry, hlk]

/-- The offline branch never consults the external lookup. -/
theorem detectEntry_offline_lk_irrel (key : String) (infos : List PackageInfo)
    (lk lk2 : String → Option String) :
    detectEntry key infos true lk = detectEntry key infos true lk2 := rfl

/-- When the external lookup fails everywhere, online detection equals
offline detection on the whole map. -/
theorem detect_offline_eq {m : PackageMap} {lk : String → Option String}
    (hlk : ∀ k, lk k = none) : detect m false lk = detect m true lk := by
  unfold detect
  generalize sortKeys m = keys
  induction keys with
  | nil => rfl
  | cons key rest ih =>
    rcases hg : mapGet m key with _ | infos
    · simp only [detectSorted, hg]
    · simp only [detectSorted, hg]
      rw [detectEntry_offline_eq (hlk key), ih]

/-! ## Claim theorems -/

/-- C1 counterexample: in online mode, with versions 1.0.0 and 2.0.0 of
name `a` and a resolver answering 1.0.0 (a unique reference version
present among the versions), the entry 2.0.0 — which differs from the
reference version — yields no DuplicateOccurrence, while the entry equal
to the reference version yields one: the detector filters against the
local maximum, not the online reference version. -/
theorem C1_counterexample :
    cx1lookup "a" = some "1.0.0" ∧
    versionsOf (buildMap cx1records) "a" = ["1.0.0", "2.0.0"] ∧
    detect (buildMap cx1records) false cx1lookup =
      .ok [{ package := "a", version := "1.0.0", latest := "1.0.0", users := [] }] ∧
    ¬ ∃ d ∈ [({ package := "a", version := "1.0.0", latest := "1.0.0",
                users := [] } : Duplicate)], d.version = "2.0.0" :=
  ⟨rfl, by decide, by decide, by decide⟩

/-- C1 (amended): for a duplicated name whose versions all parse and are
pairwise distinct, every entry whose parsed version differs from the
parsed local-maximum (default) version — in online mode as well — yields
exactly one `Duplicate` carrying that entry's users, and exactly
`N - 1` duplicates are produced. -/
theorem C1_amended_local_max_baseline (key : String) (infos : List PackageInfo)
    (offline : Bool) (lk : String → Option String) (mi : PackageInfo) (dv lv : SemVer)
    (hmax : maxByVersion infos = .ok mi)
    (hdv : semverParse mi.version = some dv)
    (hlv : semverParse (if offline then mi.version else (lk key).getD mi.version) = some lv)
    (hlen : 1 < infos.length)
    (hdist : infos.Pairwise parsedDistinct) :
    detectEntry key infos offline lk =
      .ok ((infos.filter (fun i => decide (semverParse i.version ≠ some dv))).map
        (fun i => { package := key, version := i.version,
                    latest := lv.render, users := i.users })) ∧
    ((infos.filter (fun i => decide (semverParse i.version ≠ some dv))).map
        (fun i => ({ package := key, version := i.version,
                     latest := lv.render, users := i.users } : Duplicate))).length =
      infos.length - 1 := by
  constructor
  · unfold detectEntry
    rw [if_pos hlen]
    simp only [hmax, hdv, hlv]
    exact collectDups_ok (maxByVersion_allparse hmax)
  · rw [List.length_map]
    exact filter_ne_length hdist (maxByVersion_spec hmax).1 hdv

/-- Witness for C1 (amended) at versions 1.0.0 and 2.0.0, offline. -/
theorem C1_witness :
    (maxByVersion w1infos = .ok w1mi ∧
     semverParse w1mi.version = some ⟨2, 0, 0, [], none⟩ ∧
     semverParse (if true then w1mi.version else (lkNone "a").getD w1mi.version) =
       some ⟨2, 0, 0, [], none⟩ ∧
     1 < w1infos.length ∧ w1infos.Pairwise parsedDistinct) ∧
    detectEntry "a" w1infos true lkNone =
      .ok ((w1infos.filter
          (fun i => decide (semverParse i.version ≠ some ⟨2, 0, 0, [], none⟩))).map
        (fun i => { package := "a", version := i.version,
                    latest := SemVer.render ⟨2, 0, 0, [], none⟩, users := i.users })) ∧
    ((w1infos.filter
          (fun i => decide (semverParse i.version ≠ some ⟨2, 0, 0, [], none⟩))).map
        (fun i => ({ package := "a", version := i.version,
                     latest := SemVer.render ⟨2, 0, 0, [], none⟩,
                     users := i.users } : Duplicate))).length =
      w1infos.length - 1 := by
  have h := C1_amended_local_max_baseline "a" w1infos true lkNone w1mi
    ⟨2, 0, 0, [], none⟩ ⟨2, 0, 0, [], none⟩ (by decide) (by decide) (by decide)
    (by decide) (by decide)
  exact ⟨⟨by decide, by decide, by decide, by decide, by decide⟩, h.1, h.2⟩

/-- One step of the cyclic walk: from the entry of `a`, the `find`
closure moves to the entry of `b`. -/
theorem cx2_stepA : findUserStep cx2map cx2infoA.users = some (cx2pkgB, cx2infoB) := by
  decide

/-- One step of the cyclic walk: from the entry of `b`, the `find`
closure moves back to the entry of `a`. -/
theorem cx2_stepB : findUserStep cx2map cx2infoB.users = some (cx2pkgA, cx2infoA) := by
  decide

/-- On the cyclic input, the tracer loop never breaks, from either
entry, whatever the accumulated chain. -/
theorem cx2_loop : ∀ fuel chain,
    chainLoop cx2map fuel cx2infoA chain = .outOfFuel ∧
    chainLoop cx2map fuel cx2infoB chain = .outOfFuel := by
  intro fuel
  induction fuel with
  | zero => intro chain; exact ⟨rfl, rfl⟩
  | succ n ih =>
    intro chain
    constructor
    · simp only [chainLoop, cx2_stepA]
      exact (ih _).2
    · simp only [chainLoop, cx2_stepB]
      exact (ih _).1

/-- C2: on the input whose dependent relation is the cycle `a ↔ b`, the
chain walk of `get_usage_chain` started at `a` exhausts any amount of
fuel: the unguarded `loop` of the source never terminates and never
flags the cycle. -/
theorem C2_cycle_diverges : ∀ fuel, get_usage_chain cx2map fuel cx2pkgA = .outOfFuel := by
  intro fuel
  have h1 : mapGet cx2map cx2pkgA.name = some [cx2infoA] := by decide
  have h2 : List.find? (fun info => info.version == cx2pkgA.version) [cx2infoA] =
      some cx2infoA := by decide
  unfold get_usage_chain
  simp only [h1, h2]
  exact (cx2_loop fuel _).1

/-- C3 counterexample: name `a` carries the unparseable version `bad`;
the whole detection aborts with an error even though the distinct name
`b` has two parseable versions whose analysis is thereby lost — the
failure is not scoped to the failing name. -/
theorem C3_counterexample :
    semverParse "bad" = none ∧
    versionsOf (buildMap cx3records) "b" = ["1.0.0", "2.0.0"] ∧
    detect (buildMap cx3records) true lkNone = .error (.panicVersionParse "bad") :=
  ⟨by decide, by decide, by decide⟩

/-- C3 (amended): an unparseable version under a duplicated name aborts
the entire detection run with an error (a panic of the `unwrap` inside
`max_by_key` or a propagated `Version::parse` error), rather than being
scoped to that name. -/
theorem C3_amended_abort (records : List Package) (offline : Bool)
    (lk : String → Option String) (n : String) (infos : List PackageInfo)
    (info : PackageInfo) (hn : mapGet (buildMap records) n = some infos)
    (hlen : 1 < infos.length) (hinfo : info ∈ infos)
    (hbad : semverParse info.version = none) :
    ∃ e, detect (buildMap records) offline lk = .error e := by
  have he : ∀ ds, detectEntry n infos offline lk ≠ .ok ds := by
    intro ds hok
    obtain ⟨mi, dv, lv, hm, ha, hb, hc⟩ := detectEntry_ok_inv hok hlen
    have := maxByVersion_allparse hm info hinfo
    rw [hbad] at this
    cases this
  have hcant := detectSorted_err (mem_sortKeys hn) hn he
  rcases hd : detect (buildMap records) offline lk with e | dups
  · exact ⟨e, rfl⟩
  · exact absurd hd (hcant dups)

/-- Witness for C3 (amended): name `p` with versions 0.1.0 and `oops`. -/
theorem C3_witness :
    (mapGet (buildMap w3records) "p" =
        some [{ version := "0.1.0", users := [] }, { version := "oops", users := [] }] ∧
     1 < ([({ version := "0.1.0", users := [] } : PackageInfo),
           { version := "oops", users := [] }]).length ∧
     ({ version := "oops", users := [] } : PackageInfo) ∈
       [({ version := "0.1.0", users := [] } : PackageInfo),
        { version := "oops", users := [] }] ∧
     semverParse ({ version := "oops", users := [] } : PackageInfo).version = none) ∧
    ∃ e, detect (buildMap w3records) true lkNone = .error e := by
  refine ⟨⟨by decide, by decide, by decide, by decide⟩, ?_⟩
  exact C3_amended_abort w3records true lkNone "p"
    [{ version := "0.1.0", users := [] }, { version := "oops", users := [] }]
    { version := "oops", users := [] } (by decide) (by decide) (by decide) (by decide)

/-- C4 counterexample: the dependency (`b`, `2.0.0`) of record `a` names
a present name at an absent version; the built index has no such entry
and the build emits no diagnostic at all — the edge is silently
dropped. -/
theorem C4_counterexample :
    cx4user ∈ cx4records ∧
    ({ name := "b", version := "2.0.0" } : Dependency) ∈ cx4user.dependencies ∧
    versionsOf (buildMap cx4records) "b" = ["1.0.0"] ∧
    buildDiags cx4records = [] :=
  ⟨by decide, by decide, by decide, by decide⟩

/-- C4 (amended): for every dependency edge, either the dependency's
name exists in the built index (though possibly with no entry at the
dependency's exact version — such an edge is silently dropped), or the
`not found` diagnostic naming the dependency was emitted. -/
theorem C4_amended_name_or_diag (records : List Package) (p : Package)
    (dep : Dependency) (hp : p ∈ records) (hdep : dep ∈ p.dependencies) :
    (∃ infos, mapGet (buildMap records) dep.name = some infos) ∨
      ("ERROR: " ++ dep.name ++ " not found") ∈ buildDiags records := by
  rcases hg : mapGet (pass1 [] records) dep.name with _ | infos
  · right
    unfold buildDiags
    exact pass2_diag hp hdep hg
  · left
    have hdom := @pass2_domain (pass1 [] records) records dep.name
    rw [hg] at hdom
    unfold buildMap
    rcases hx : mapGet (pass2 (pass1 [] records) records).1 dep.name with _ | infos2
    · rw [hx] at hdom
      cases hdom
    · exact ⟨infos2, rfl⟩

/-- Witness for C4 (amended): record `a` depends on the absent name `x`. -/
theorem C4_witness :
    (w4user ∈ w4records ∧
     ({ name := "x", version := "1.0.0" } : Dependency) ∈ w4user.dependencies) ∧
    ((∃ infos, mapGet (buildMap w4records)
        ({ name := "x", version := "1.0.0" } : Dependency).name = some infos) ∨
      ("ERROR: " ++ ({ name := "x", version := "1.0.0" } : Dependency).name ++
          " not found") ∈ buildDiags w4records) :=
  ⟨⟨by decide, by decide⟩,
   C4_amended_name_or_diag w4records w4user { name := "x", version := "1.0.0" }
     (by decide) (by decide)⟩

/-- C5 counterexample: for the duplicated name `b`, the external lookup
succeeds with the non-semver string `garbage`; instead of falling back
to the offline reference version, the whole run aborts with a
`Version::parse` error. -/
theorem C5_counterexample :
    cx5lookup "b" = some "garbage" ∧
    semverParse "garbage" = none ∧
    versionsOf (buildMap cx5records) "b" = ["1.0.0", "2.0.0"] ∧
    detect (buildMap cx5records) false cx5lookup = .error (.errVersionParse "garbage") :=
  ⟨rfl, by decide, by decide, by decide⟩

/-- C5 (amended): when the external lookup itself fails (network error,
timeout, missing field), online detection equals offline detection —
the analysis falls back to the offline reference version; only a lookup
that succeeds with an unparseable string aborts the run. -/
theorem C5_amended_fallback (m : PackageMap) (lk : String → Option String)
    (hlk : ∀ k, lk k = none) : detect m false lk = detect m true lk :=
  detect_offline_eq hlk

/-- Witness for C5 (amended) on a duplicated name with a failing lookup. -/
theorem C5_witness :
    (∀ k, lkNone k = none) ∧
    detect (buildMap w5records) false lkNone = detect (buildMap w5records) true lkNone :=
  ⟨fun k => rfl, C5_amended_fallback (buildMap w5records) lkNone (fun k => rfl)⟩

/-- C6: whenever the detector's `max_by_key` over a name's entries
succeeds, its result is one of that name's entries and its parsed
version is maximal (under semver precedence) among all parsed versions
present; in offline mode the external lookup is never consulted and
every produced duplicate reports exactly this local maximum as
`latest`. -/
theorem C6_offline_reference_max (infos : List PackageInfo) (mi : PackageInfo)
    (hmax : maxByVersion infos = .ok mi) :
    ∃ dv, semverParse mi.version = some dv ∧ mi ∈ infos ∧
      (∀ info ∈ infos, ∀ w, semverParse info.version = some w → semverCmp w dv ≠ .gt) ∧
      (∀ key lk lk2, detectEntry key infos true lk = detectEntry key infos true lk2) ∧
      (∀ key lk ds, detectEntry key infos true lk = .ok ds →
        ∀ d ∈ ds, d.latest = dv.render) := by
  obtain ⟨hmem, dv, hdv, hall⟩ := maxByVersion_spec hmax
  refine ⟨dv, hdv, hmem, hall, fun key lk lk2 => rfl, ?_⟩
  intro key lk ds hok d hd
  by_cases hlen : 1 < infos.length
  · obtain ⟨mi2, dv2, lv2, hm2, hdv2, hlv2, hc2⟩ := detectEntry_ok_inv hok hlen
    obtain rfl : mi = mi2 := by
      rw [hmax] at hm2
      cases hm2
      rfl
    have hlv3 : semverParse mi.version = some lv2 := hlv2
    rw [hdv] at hlv3
    obtain rfl : dv = lv2 := by cases hlv3; rfl
    exact (collectDups_mem hc2 hd).2.1
  · unfold detectEntry at hok
    rw [if_neg hlen] at hok
    obtain rfl : ([] : List Duplicate) = ds := by cases hok; rfl
    cases hd

/-- Witness for C6 on versions 0.9.0 and 1.0.0. -/
theorem C6_witness :
    maxByVersion w6infos = .ok w6mi ∧
    (∃ dv, semverParse w6mi.version = some dv ∧ w6mi ∈ w6infos ∧
      (∀ info ∈ w6infos, ∀ w, semverParse info.version = some w → semverCmp w dv ≠ .gt) ∧
      (∀ key lk lk2, detectEntry key w6infos true lk = detectEntry key w6infos true lk2) ∧
      (∀ key lk ds, detectEntry key w6infos true lk = .ok ds →
        ∀ d ∈ ds, d.latest = dv.render)) :=
  ⟨by decide, C6_offline_reference_max w6infos w6mi (by decide)⟩

/-- C7: if every input record named `n` carries one and the same version
string, then no duplicate of a successful run names `n`. -/
theorem C7_single_version_silent (records : List Package) (n v : String)
    (offline : Bool) (lk : String → Option String) (dups : List Duplicate)
    (hone : ∀ p ∈ records, p.name = n → p.version = v)
    (hok : detect (buildMap records) offline lk = .ok dups) :
    ∀ d ∈ dups, d.package ≠ n := by
  intro d hd hdn
  obtain ⟨key, infos, ds, hg, he, hds⟩ := detectSorted_mem hok hd
  obtain ⟨hlen, hpkg, mi, dv, hm, hdv, info, hinfo, hver, husers, w, hw, hwdv⟩ :=
    detectEntry_mem he hds
  have hkey : key = n := by rw [← hpkg, hdn]
  subst hkey
  have hallv : ∀ s ∈ versionsOf (buildMap records) key, s = v := by
    rw [versionsOf_buildMap]
    intro s hs
    obtain ⟨q, hq, rfl⟩ := List.mem_map.mp hs
    have hq2 := List.mem_filter.mp hq
    exact hone q hq2.1 (by simpa using hq2.2)
  have h1 : info.version = v := hallv _ (entry_mem_versionsOf hg hinfo)
  have h2 : mi.version = v := hallv _ (entry_mem_versionsOf hg (maxByVersion_spec hm).1)
  rw [h1] at hw
  rw [h2] at hdv
  rw [hdv] at hw
  obtain rfl : dv = w := by cases hw; rfl
  exact hwdv rfl

/-- Witness for C7: single-version name `a` next to duplicated name `b`. -/
theorem C7_witness :
    ((∀ p ∈ w7records, p.name = "a" → p.version = "1.0.0") ∧
     detect (buildMap w7records) true lkNone =
       .ok [{ package := "b", version := "1.0.0", latest := "2.0.0", users := [] }]) ∧
    ∀ d ∈ [({ package := "b", version := "1.0.0", latest := "2.0.0",
              users := [] } : Duplicate)], d.package ≠ "a" :=
  ⟨⟨by decide, by decide⟩,
   C7_single_version_silent w7records "a" "1.0.0" true lkNone
     [{ package := "b", version := "1.0.0", latest := "2.0.0", users := [] }]
     (by decide) (by decide)⟩

/-- C8: a finished walk of `get_usage_chain` over the built index starts
at the queried record's label, and every subsequent label belongs to an
input record that declares a dependency on the previous label's exact
(name, version). -/
theorem C8_chain_sound (records : List Package) (fuel : Nat) (p : Package)
    (chain : List (String × String))
    (h : get_usage_chain (buildMap records) fuel p = .done chain) :
    chain.head? = some (p.name, p.version) ∧ ChainedBy (chainStep records) chain :=
  get_usage_chain_sound (buildMap_usersOk records) h

/-- Witness for C8: the chain `b v1.0.0 -> a v1.0.0`. -/
theorem C8_witness :
    get_usage_chain (buildMap w8records) 2 w8pkg =
      .done [("b", "1.0.0"), ("a", "1.0.0")] ∧
    (([("b", "1.0.0"), ("a", "1.0.0")] : List (String × String)).head? =
        some (w8pkg.name, w8pkg.version) ∧
      ChainedBy (chainStep w8records) [("b", "1.0.0"), ("a", "1.0.0")]) := by
  have h : get_usage_chain (buildMap w8records) 2 w8pkg =
      .done [("b", "1.0.0"), ("a", "1.0.0")] := by decide
  exact ⟨h, C8_chain_sound w8records 2 w8pkg [("b", "1.0.0"), ("a", "1.0.0")] h⟩

/-- C9 counterexample: two records with the identical (name, version)
pair produce two `PackageInfo` entries under that name, not one — pass 1
pushes unconditionally instead of inserting only if absent. -/
theorem C9_counterexample :
    versionsOf (buildMap cx9records) "a" = ["1.0.0", "1.0.0"] ∧
    ((mapGet (buildMap cx9records) "a").getD []).length = 2 ∧
    ((mapGet (buildMap cx9records) "a").getD []).length ≠ 1 :=
  ⟨by decide, by decide, by decide⟩

/-- C9 (amended): pass 1 appends one entry per record unconditionally:
the versions stored under a name are exactly the versions of the records
bearing that name, in input order, duplicates included. -/
theorem C9_amended_one_entry_per_record (records : List Package) (n : String) :
    versionsOf (buildMap records) n =
      (records.filter (fun p => p.name == n)).map (fun p => p.version) :=
  versionsOf_buildMap records n

/-- C10: after pass 1 every input record has an entry of its version
under its name, and on the fully built index the entry point of
`get_usage_chain` cannot panic for a queried package taken from the
input records (users stored in dependents lists are such records). -/
theorem C10_entry_total (records : List Package) (p : Package) (fuel : Nat)
    (hp : p ∈ records) :
    (∃ infos, mapGet (pass1 [] records) p.name = some infos ∧
       ∃ info ∈ infos, info.version = p.version) ∧
    get_usage_chain (buildMap records) fuel p ≠ .panicked := by
  have hmemv : p.version ∈
      (records.filter (fun q => q.name == p.name)).map (fun q => q.version) :=
    List.mem_map.mpr ⟨p, List.mem_filter.mpr ⟨hp, by simp⟩, rfl⟩
  constructor
  · have hv1 : p.version ∈ versionsOf (pass1 [] records) p.name := by
      rw [versionsOf_pass1]
      simpa [versionsOf, mapGet] using hmemv
    exact versionsOf_mem_entry hv1
  · have hv2 : p.version ∈ versionsOf (buildMap records) p.name := by
      rw [versionsOf_buildMap]
      exact hmemv
    obtain ⟨infos, hg, info, hinfo, hver⟩ := versionsOf_mem_entry hv2
    intro hpan
    unfold get_usage_chain at hpan
    simp only [hg] at hpan
    rcases hf : infos.find? (fun i => i.version == p.version) with _ | cur
    · have hnone := List.find?_eq_none.mp hf info hinfo
      rw [hver] at hnone
      exact hnone (by simp)
    · simp only [hf] at hpan
      exact chainLoop_ne_panicked fuel cur _ hpan

/-- Witness for C10: querying a record of the input. -/
theorem C10_witness :
    w10pkg ∈ w10records ∧
    ((∃ infos, mapGet (pass1 [] w10records) w10pkg.name = some infos ∧
        ∃ info ∈ infos, info.version = w10pkg.version) ∧
      get_usage_chain (buildMap w10records) 4 w10pkg ≠ .panicked) :=
  ⟨by decide, C10_entry_total w10records w10pkg 4 (by decide)⟩
